import Mathlib

/-!
Shallow embedding of the computational-geometry core of the
topological-maps-generator editor (`src/tm-editor.ts`).

Modelling conventions:
* JavaScript numbers are modelled by `ℚ` (the spec explicitly disclaims
  exact floating-point semantics; all comparisons in the source are plain
  orderings and epsilon tests, which are exact over `ℚ`).
* `Math.sqrt` is modelled by `Rat.sqrt`, a rational stand-in that agrees
  with the real square root on perfect squares.  No theorem below depends
  on the value it returns.
* JavaScript division by zero yields `Infinity`/`NaN`; every such site in
  the modelled functions is guarded explicitly and the guard is commented
  at the site.
* A JavaScript `TypeError` (property access on `undefined`/`null`) is
  modelled by an `Option` result, `none` standing for the thrown error.
-/

namespace TM

/-- Numeric tolerance 1e-9 used by `closeTo` and `validIntersection`. -/
def eps9 : ℚ := 1 / 1000000000

/-- Numeric tolerance 1e-6 used by `collinear`. -/
def eps6 : ℚ := 1 / 1000000

/-- Numeric tolerance 1e-5 used by `monotoneTangents`. -/
def eps5 : ℚ := 1 / 100000

/-- A 2D point `{x, y}` (interface `Point` in the source). -/
structure Pt where
  x : ℚ
  y : ℚ
deriving DecidableEq, Repr

/-- The zero point, used as the default for (never taken) out-of-range list reads. -/
def pt0 : Pt := ⟨0, 0⟩

/-- A directed segment `{start, end}` (interface `Segment`); the source field
`end` is a Lean keyword and is rendered `stop`. -/
structure Seg where
  start : Pt
  stop : Pt
deriving DecidableEq, Repr

/-- A parametric interval `{start, end}` (interface `Interval`). -/
structure Interval where
  start : ℚ
  stop : ℚ
deriving DecidableEq, Repr

/-- The `{u, v}` record returned by `intersectSegments`. -/
structure UV where
  u : ℚ
  v : ℚ
deriving DecidableEq, Repr

/-- `closeTo(n, t)`: absolute 1e-9 test. -/
def closeTo (n t : ℚ) : Bool := decide (|n - t| < eps9)

/-- `vec(p1, p2)` (the Point overload): the vector from `p1` to `p2`. -/
def vec (p1 p2 : Pt) : Pt := ⟨p2.x - p1.x, p2.y - p1.y⟩

/-- `cross(v1, v2)`: 2D scalar cross product. -/
def cross (v1 v2 : Pt) : ℚ := v1.x * v2.y - v2.x * v1.y

/-- `dot(v1, v2)`. -/
def dot (v1 v2 : Pt) : ℚ := v1.x * v2.x + v1.y * v2.y

/-- `vec_plus(v1, v2)` (the source is variadic; only the binary form is used
in the functions modelled here). -/
def vec_plus (v1 v2 : Pt) : Pt := ⟨v1.x + v2.x, v1.y + v2.y⟩

/-- `vec_minus(v1, v2)`. -/
def vec_minus (v1 v2 : Pt) : Pt := ⟨v1.x - v2.x, v1.y - v2.y⟩

/-- `vec_mult(v1, t)`. -/
def vec_mult (v1 : Pt) (t : ℚ) : Pt := ⟨v1.x * t, v1.y * t⟩

/-- `vec_divide(v1, t)`. -/
def vec_divide (v1 : Pt) (t : ℚ) : Pt := ⟨v1.x / t, v1.y / t⟩

/-- `ptPlus(p1, p2)`. -/
def ptPlus (p1 p2 : Pt) : Pt := ⟨p1.x + p2.x, p1.y + p2.y⟩

/-- `distanceSq(p1, p2)`. -/
def distanceSq (p1 p2 : Pt) : ℚ := (p2.x - p1.x) ^ 2 + (p2.y - p1.y) ^ 2

/-- `ptEq(p1, p2)`: exact coordinate equality (`===` in the source). -/
def ptEq (p1 p2 : Pt) : Bool := decide (p1.x = p2.x) && decide (p1.y = p2.y)

/-- `ptClose(p1, p2)`: coordinatewise `closeTo`. -/
def ptClose (p1 p2 : Pt) : Bool := closeTo p1.x p2.x && closeTo p1.y p2.y

/-- `magnitude(v)`; `Math.sqrt` modelled by `Rat.sqrt` (see file header). -/
def magnitude (v : Pt) : ℚ := Rat.sqrt (dot v v)

/-- `normalized(v)`.  For `v = 0` the source produces `NaN` coordinates while
the rational model divides by zero (giving `0`); every use below multiplies
the result by an offset amount, and no theorem depends on these values. -/
def normalized (v : Pt) : Pt := vec_mult v (1 / magnitude v)

/-- `validInterval(interval)`. -/
def validInterval (i : Interval) : Bool := decide (i.start ≤ i.stop)

/-- `intersectIntervals(i1, i2)`. -/
def intersectIntervals (i1 i2 : Interval) : Option Interval :=
  let result : Interval := ⟨max i1.start i2.start, min i1.stop i2.stop⟩
  if validInterval result then some result else none

/-- The four endpoint-equality fallback cases at the end of the collinear
branch of `intersectSegments`. -/
def endpointCases (segment1 segment2 : Seg) : Option UV :=
  if ptClose segment1.start segment2.start then some ⟨0, 0⟩
  else if ptClose segment2.start segment1.stop then some ⟨1, 0⟩
  else if ptClose segment1.start segment2.stop then some ⟨0, 1⟩
  else if ptClose segment1.stop segment2.stop then some ⟨1, 1⟩
  else none

/-- `intersectSegments(segment1, segment2)`, `null` modelled by `none`.

Two zero-divisor sites of the source are made explicit:
* if `dot r r = 0` the source computes `u0 = u1 = NaN` (0/0), the interval
  test `NaN <= NaN` fails, and control falls through to the endpoint cases —
  modelled by the `dot r r = 0` guard;
* if `dot s s = 0` while the interval is valid, the source returns
  `{u, v: NaN}`; every caller that reads `v` rejects it with a range
  comparison (comparisons with `NaN` are false), and the one caller that
  ignores `v` (`expand`) can never reach this case because its two offset
  segments are never zero-length there — modelled as `none`. -/
def intersectSegments (segment1 segment2 : Seg) : Option UV :=
  let s1 := segment1.start
  let e1 := segment1.stop
  let r := vec s1 e1
  let s2 := segment2.start
  let e2 := segment2.stop
  let s := vec s2 e2
  let numerator1 := cross (vec s1 s2) r
  let denom := cross r s
  if closeTo numerator1 0 && closeTo denom 0 then
    let dot_r_r := dot r r
    if dot_r_r = 0 then endpointCases segment1 segment2
    else
      let u0 := dot (vec s1 s2) r / dot_r_r
      let u1 := dot (vec s1 (vec_plus s2 s)) r / dot_r_r
      let p : ℚ × ℚ := if dot s r < 0 then (u1, u0) else (u0, u1)
      match intersectIntervals ⟨p.1, p.2⟩ ⟨0, 1⟩ with
      | some ii =>
          if dot s s = 0 then none
          else
            let u := ii.start
            let v := (dot (vec_minus s1 s2) s + dot (vec_mult r u) s) / dot s s
            some ⟨u, v⟩
      | none => endpointCases segment1 segment2
  else if closeTo numerator1 0 || closeTo denom 0 then none
  else some ⟨cross (vec s1 s2) s / denom, numerator1 / denom⟩

/-- Consecutive-pair part of `segments(pts)`: the loop pushing
`{start: pts[i-1], end: pts[i]}`. -/
def consecSegs : Pt → List Pt → List Seg
  | _, [] => []
  | p, q :: l => ⟨p, q⟩ :: consecSegs q l

/-- `segments(pts)`: consecutive segments plus the closing segment from the
last point back to the first; empty for fewer than 2 points. -/
def segments (pts : List Pt) : List Seg :=
  match pts with
  | [] => []
  | [_] => []
  | p0 :: rest => consecSegs p0 rest ++ [⟨(p0 :: rest).getLastD p0, p0⟩]

/-- Proof-auxiliary view of the non-closing segments of a vertex chain:
`segments pts` is `pathSegs pts` plus the closing segment (for `≥ 2`
points). -/
def pathSegs : List Pt → List Seg
  | [] => []
  | p :: l => consecSegs p l

/-- The summand `(x2 - x1)*(y2 + y1)` of `areWindingClockwise`. -/
def windingTerm (s : Seg) : ℚ := (s.stop.x - s.start.x) * (s.stop.y + s.start.y)

/-- The accumulated sum of `areWindingClockwise`. -/
def windingSum (pts : List Pt) : ℚ := ((segments pts).map windingTerm).sum

/-- `areWindingClockwise(pts)`: negative shoelace-style sum. -/
def areWindingClockwise (pts : List Pt) : Bool := decide (windingSum pts < 0)

/-- `inside(poly, pt)`: even-odd ray casting in the `+x` direction. -/
def inside (poly : List Pt) (p : Pt) : Bool :=
  let ray : Seg := ⟨p, ptPlus p ⟨1, 0⟩⟩
  let n := (segments poly).countP fun s =>
    match intersectSegments s ray with
    | some uv => decide (0 ≤ uv.u) && decide (uv.u ≤ 1) && decide (0 ≤ uv.v)
    | none => false
  n % 2 == 1

/-- `pickClockwiseOrder(pts)`. -/
def pickClockwiseOrder (pts : List Pt) : List Pt :=
  if pts.length ≤ 2 then pts
  else if areWindingClockwise pts then pts else pts.reverse

/-- `validIntersection(intersection)` (the `u, v ∈ [-ε, 1+ε]` and one-strict
rule). -/
def validIntersection (intersection : Option UV) : Bool :=
  match intersection with
  | none => false
  | some i =>
      decide (-eps9 ≤ i.u) && decide (i.u ≤ 1 + eps9) &&
      decide (-eps9 ≤ i.v) && decide (i.v ≤ 1 + eps9) &&
      (decide (0 < i.u) && decide (i.u < 1) || decide (0 < i.v) && decide (i.v < 1))

/-- `getIntersectionPoint(intersection, segment1)`. -/
def getIntersectionPoint (i : UV) (segment1 : Seg) : Pt :=
  vec_plus segment1.start (vec_mult (vec segment1.start segment1.stop) i.u)

/-- The strict-crossing test of `polyUnion`
(`u > 0 && u < 1 && v > 0 && v < 1` on a non-null intersection). -/
def isStrictCrossing (o : Option UV) : Bool :=
  match o with
  | none => false
  | some i => decide (0 < i.u) && decide (i.u < 1) && decide (0 < i.v) && decide (i.v < 1)

/-- `collinear(p1, p2, p3)`: slope comparison with tolerance 1e-6.  In the
source a vertical (or degenerate) first difference makes the slope
`±Infinity`/`NaN`, so the `<=` comparison is false; the two explicit
denominator-nonzero conjuncts model exactly that. -/
def collinear (p1 p2 p3 : Pt) : Bool :=
  decide (p2.x - p1.x ≠ 0) && decide (p3.x - p1.x ≠ 0) &&
    decide (|(p2.y - p1.y) / (p2.x - p1.x) - (p3.y - p1.y) / (p3.x - p1.x)| ≤ eps6)

/-- `normal(segment)`: the perpendicular unit vector `n` with
`cross(v, n) < 0` (assumes clockwise winding). -/
def normal (segment : Seg) : Pt :=
  let v := vec segment.start segment.stop
  let n1 := normalized ⟨-v.y, v.x⟩
  let n2 := normalized ⟨v.y, -v.x⟩
  if cross v n1 < 0 then n1 else n2

/-- The body of the `expand` loop at index `i` of the clockwise-ordered point
list `q`: the (zero- or one-element) contribution of vertex `i` to the
result.  `ptAt` index arithmetic `(i ± 1 + length) % length` is carried out
on `ℕ`; all reads are in range for `i < q.length`, so the `getD` defaults
are never used. -/
def expandVertex (q : List Pt) (amount : ℚ) (i : ℕ) : List Pt :=
  let n := q.length
  let p := q.getD i pt0
  let prevPt := q.getD ((i + n - 1) % n) pt0
  let nextPt := q.getD ((i + 1) % n) pt0
  if ptEq p nextPt || ptEq prevPt p || collinear prevPt p nextPt then []
  else
    let n1 := normal ⟨prevPt, p⟩
    let n2 := normal ⟨p, nextPt⟩
    let prevPtExp := vec_plus prevPt (vec_mult n1 amount)
    let ptExp := vec_plus p (vec_mult n1 amount)
    let nextPtExp := vec_plus nextPt (vec_mult n2 amount)
    let ptExp2 := vec_plus p (vec_mult n2 amount)
    let prevSegmentExp : Seg := ⟨prevPtExp, ptExp⟩
    let nextSegmentExp : Seg := ⟨nextPtExp, ptExp2⟩
    match intersectSegments prevSegmentExp nextSegmentExp with
    | none => []
    | some uv =>
        [vec_plus prevSegmentExp.start
          (vec_mult (vec prevSegmentExp.start prevSegmentExp.stop) uv.u)]

/-- `expand(pts, amount)`: clockwise-normalize, then offset each
non-degenerate vertex by intersecting its two offset edges (miter join). -/
def expand (pts : List Pt) (amount : ℚ) : List Pt :=
  let q := pickClockwiseOrder pts
  (List.range q.length).flatMap (expandVertex q amount)

/-- `getControlPointsFromTangents(points, tangents)`: two Bezier control
points per consecutive pair.  List reads are modelled with `getD`; in every
call site of the source (and of the theorems below) `tangents` has the same
length as `points`, so all reads are in range. -/
def getControlPointsFromTangents (points tangents : List Pt) : List Pt :=
  (List.range (points.length - 1)).flatMap fun i =>
    let p1 := points.getD i pt0
    let p2 := points.getD (i + 1) pt0
    let t1 := tangents.getD i pt0
    let t2 := tangents.getD (i + 1) pt0
    [⟨p1.x + t1.x, p1.y + t1.y⟩, ⟨p2.x - t2.x, p2.y - t2.y⟩]

/-- Body of the sequential step-4+5 loop of `monotoneTangents` (the
Fritsch–Carlson rescaling), acting on the running tangent-slope array `mm`
for secant slopes `d`. -/
def monotoneRescaleStep (d : ℕ → ℚ) (mm : List ℚ) (k : ℕ) : List ℚ :=
  let mk := mm.getD k 0
  let mk1 := mm.getD (k + 1) 0
  if |mk| < eps5 ∨ |mk1| < eps5 then mm
  else
    let ak := mk / d k
    let bk := mk1 / d k
    let s := ak * ak + bk * bk
    if 9 < s then
      let tk := 3 / Rat.sqrt s
      (mm.set k (tk * ak * d k)).set (k + 1) (tk * bk * d k)
    else mm

/-- `monotoneTangents(points)`: Fritsch–Carlson style monotone tangents.

For fewer than 2 points the source dereferences `points[1]` (or reads
`d[0]`/`points[1]` as `undefined`) in `dx[0] = points[1].x - points[0].x`
and throws a `TypeError`, modelled by `none`.  Secant slopes `d[k]` over a
zero horizontal run are `±Infinity`/`NaN` in the source while the rational
model yields the junk value `0`; the resulting tangent VALUES may therefore
differ from the float run, but the list shape (one tangent per point, which
is all the theorems below use) does not.  `Math.sqrt` is `Rat.sqrt` (file
header). -/
def monotoneTangents (points : List Pt) : Option (List Pt) :=
  if points.length < 2 then none
  else
    let n := points.length
    let P := fun i => points.getD i pt0
    let d := fun k => ((P (k + 1)).y - (P k).y) / ((P (k + 1)).x - (P k).x)
    -- m after the initialization loops (endpoints take the nearest secant)
    let m0 : List ℚ := (List.range n).map fun k =>
      if k = 0 then d 0 else if k = n - 1 then d (n - 2) else (d (k - 1) + d k) / 2
    let dx : List ℚ := (List.range n).map fun k =>
      if k = 0 then (P 1).x - (P 0).x
      else if k = n - 1 then (P (n - 1)).x - (P (n - 2)).x
      else ((P (k + 1)).x - (P (k - 1)).x) / 2
    -- step 3: zero both tangents flanking a zero secant (assignments are
    -- order-independent, so they are expressed pointwise)
    let m3 : List ℚ := (List.range n).map fun k =>
      if (k < n - 1 ∧ d k = 0) ∨ (1 ≤ k ∧ d (k - 1) = 0) then 0 else m0.getD k 0
    -- steps 4+5: sequential rescaling pass (later iterations read the
    -- updates of earlier ones, hence a fold)
    let m4 : List ℚ := (List.range (n - 1)).foldl (monotoneRescaleStep d) m3
    some ((List.range n).map fun i =>
      let mi := m4.getD i 0
      let len := 1 + mi * mi
      ⟨dx.getD i 0 / 3 / len, mi * (dx.getD i 0) / 3 / len⟩)

/-- The `addPoint(p)` closure of `getClosedBasisCurvePoints`, acting on the
running state `(p0, p1, pts, cps)`. -/
def basisAddPoint (st : Pt × Pt × List Pt × List Pt) (p : Pt) :
    Pt × Pt × List Pt × List Pt :=
  let p0 := st.1
  let p1 := st.2.1
  let pts := st.2.2.1
  let cps := st.2.2.2
  (p1, p,
   pts ++ [⟨(p0.x + 4 * p1.x + p.x) / 6, (p0.y + 4 * p1.y + p.y) / 6⟩],
   cps ++ [⟨(2 * p0.x + p1.x) / 3, (2 * p0.y + p1.y) / 3⟩,
           ⟨(p0.x + 2 * p1.x) / 3, (p0.y + 2 * p1.y) / 3⟩])

/-- `getClosedBasisCurvePoints(points)`: uniform cubic B-spline to Bezier
conversion of a closed control polygon; `([], [])` for 3 or fewer points.
The loop `for i in 3 ..` followed by `addPoint(f); addPoint(s); addPoint(t)`
is the fold over `points.drop 3 ++ [f, s, t]`. -/
def getClosedBasisCurvePoints (points : List Pt) : List Pt × List Pt :=
  if points.length ≤ 3 then ([], [])
  else
    match points with
    | f :: s :: t :: _ =>
      let pts0 : List Pt := [⟨(f.x + 4 * s.x + t.x) / 6, (f.y + 4 * s.y + t.y) / 6⟩]
      let fin := ((points.drop 3) ++ [f, s, t]).foldl basisAddPoint (s, t, pts0, [])
      (fin.2.2.1, fin.2.2.2)
    | _ => ([], [])

/-! ### The `polyUnion` adjacency graph -/

/-- A vertex of the adjacency graph built by `polyUnion`: a point and its
current list of neighbours. -/
structure GNode where
  p : Pt
  neighbours : List Pt
deriving DecidableEq, Repr

/-- The graph is the array of nodes, looked up linearly by `ptEq`. -/
abbrev Graph := List GNode

/-- `addNeighbour(graph, to, neighbour)`: push `neighbour` onto every node
whose point equals `to` (there is at most one by construction, but the
source's `filter(...).forEach` touches all matches), else append a fresh
node. -/
def addNeighbour (graph : Graph) (toPt nb : Pt) : Graph :=
  if graph.any (fun el => ptEq el.p toPt) then
    graph.map fun el =>
      if ptEq el.p toPt then { el with neighbours := el.neighbours ++ [nb] } else el
  else graph ++ [⟨toPt, [nb]⟩]

/-- The neighbour-list update of `removeNeighbour`: the source splices inside
a forward `for` loop, so the element immediately after a removed match is
never examined (and a second adjacent match survives); modelled exactly. -/
def spliceOut (nb : Pt) : List Pt → List Pt
  | [] => []
  | x :: rest =>
      if ptEq nb x then
        match rest with
        | [] => []
        | y :: rest2 => y :: spliceOut nb rest2
      else x :: spliceOut nb rest

/-- `removeNeighbour(graph, to, neighbour)`. -/
def removeNeighbour (graph : Graph) (toPt nb : Pt) : Graph :=
  graph.map fun el =>
    if ptEq el.p toPt then { el with neighbours := spliceOut nb el.neighbours } else el

/-- `linkPoints(graph, p1, p2)`. -/
def linkPoints (graph : Graph) (p1 p2 : Pt) : Graph :=
  addNeighbour (addNeighbour graph p1 p2) p2 p1

/-- `unlinkPoints(graph, p1, p2)`. -/
def unlinkPoints (graph : Graph) (p1 p2 : Pt) : Graph :=
  removeNeighbour (removeNeighbour graph p1 p2) p2 p1

/-- `getNeighbours(graph, p)`: the source reads `.neighbours` off
`graph.find(...)`, a `TypeError` when the point is absent — hence `Option`. -/
def getNeighbours (graph : Graph) (p : Pt) : Option (List Pt) :=
  (graph.find? fun el => ptEq el.p p).map (·.neighbours)

/-- `furthestFromLowestLeft(pts)`: the point furthest from
`{x: min x, y: max y}`.  The source sorts descending by squared distance
(stably) and takes element 0, i.e. the first point attaining the maximum;
modelled by a fold keeping the first strict maximum.  An empty `pts` makes
the source's initial-value-less `reduce` throw, hence `Option` (unreachable
from `polyUnion`, which only calls this when an intersection exists). -/
def furthestFromLowestLeft (pts : List Pt) : Option Pt :=
  match pts with
  | [] => none
  | p :: rest =>
      let minx := (rest.map (·.x)).foldl min p.x
      let maxy := (rest.map (·.y)).foldl max p.y
      let lowerLeftCorner : Pt := ⟨minx, maxy⟩
      some (rest.foldl
        (fun best q =>
          if distanceSq best lowerLeftCorner < distanceSq q lowerLeftCorner then q else best)
        p)

/-- `mergeGraphs(g1, g2)`: fold `g2` into a copy of `g1`, concatenating
neighbour lists of the first point-equal node (`find`), else appending. -/
def mergeNode (res : Graph) (v2 : GNode) : Graph :=
  match res with
  | [] => [v2]
  | v :: rest =>
      if ptEq v.p v2.p then { v with neighbours := v.neighbours ++ v2.neighbours } :: rest
      else v :: mergeNode rest v2

/-- `mergeGraphs(g1, g2)`. -/
def mergeGraphs (g1 g2 : Graph) : Graph := g2.foldl mergeNode g1

/-- Exact decision of the ordering used by the `polyUnion` corner sort.
The source compares `angleBetween(r, w1)` with `angleBetween(r, w2)`, i.e.
the `atan2` differences wrapped into `(-π, π]`; that wrapped difference
equals `atan2(cross(r, w), dot(r, w))`, so the comparison is decided
exactly over `ℚ` by classifying each pair into one of the eight angular
regions of the circle ordered from `-π` (exclusive) to `π` (inclusive) and
comparing within an open region by the cross product.  (For a zero vector
`atan2(0, 0) = 0` like region 3; no theorem below exercises this order.) -/
def angleRegion (y x : ℚ) : ℕ :=
  if y < 0 then (if x < 0 then 0 else if x = 0 then 1 else 2)
  else if y = 0 then (if 0 ≤ x then 3 else 7)
  else (if 0 < x then 4 else if x = 0 then 5 else 6)

/-- `angleBetween(r, w1) < angleBetween(r, w2)`, decided exactly (see
`angleRegion`). -/
def angleLt (r w1 w2 : Pt) : Bool :=
  let y1 := cross r w1
  let x1 := dot r w1
  let y2 := cross r w2
  let x2 := dot r w2
  if angleRegion y1 x1 = angleRegion y2 x2 then decide (0 < x1 * y2 - x2 * y1)
  else decide (angleRegion y1 x1 < angleRegion y2 x2)

/-- Stable insertion step for an ascending sort by `lt` (matches the
source's stable `Array.sort` with a numeric comparator). -/
def insertBy (lt : Pt → Pt → Bool) (x : Pt) : List Pt → List Pt
  | [] => [x]
  | y :: l => if lt x y then x :: y :: l else y :: insertBy lt x l

/-- Stable insertion sort by `lt`. -/
def sortBy (lt : Pt → Pt → Bool) (l : List Pt) : List Pt :=
  l.foldl (fun acc x => insertBy lt x acc) []

/-- State threaded through the intersection-collection phase of
`polyUnion`: the (live, split-in-place) `segs2` array, the two graphs and
the `haveIntersection` flag. -/
structure UnionScanState where
  segs2 : List Seg
  poly2Graph : Graph
  graph : Graph
  haveIntersection : Bool
deriving Repr

/-- One iteration of the inner `for (let s2 of [...segs2])` loop of
`polyUnion` for the fixed `poly1` segment `s1`.  On a strict crossing the
intersection point is recorded (the source also records `s2`'s endpoints
with it, but never reads them), `poly2Graph` is relinked through the point,
and the crossed segment is replaced by its two halves in `segs2` (the
source splices inside a `forEach`; the two halves start/end at the
strictly interior point, so neither is re-matched). -/
def innerScan (s1 : Seg) (acc : List Pt × UnionScanState) (s2 : Seg) :
    List Pt × UnionScanState :=
  let inters := intersectSegments s1 s2
  if isStrictCrossing inters then
    match inters with
    | none => acc
    | some uv =>
        let v := vec s1.start s1.stop
        let p := vec_plus s1.start (vec_mult v uv.u)
        let st := acc.2
        let g2 := unlinkPoints
          (linkPoints (linkPoints st.poly2Graph s2.start p) s2.stop p)
          s2.start s2.stop
        let newSegs2 := st.segs2.flatMap fun q =>
          if ptEq q.start s2.start && ptEq q.stop s2.stop then
            [⟨s2.start, p⟩, ⟨p, s2.stop⟩]
          else [q]
        (acc.1 ++ [p],
         { st with segs2 := newSegs2, poly2Graph := g2, haveIntersection := true })
  else acc

/-- Link the `poly1` chain `p0 → pts… → s1.end` into `graph` (the loop over
`arr = intersectionPts.concat(end)`). -/
def linkChain (g : Graph) (p0 : Pt) : List Pt → Graph
  | [] => g
  | q :: l => linkChain (linkPoints g p0 q) q l

/-- Processing of one `poly1` segment in `polyUnion`: scan a snapshot of the
current `segs2`, then link the chain of collected crossing points (sorted
by distance from the segment start) into `graph`. -/
def scanSegment (st : UnionScanState) (s1 : Seg) : UnionScanState :=
  let res := st.segs2.foldl (innerScan s1) ([], st)
  let sorted := sortBy
    (fun a b => decide (distanceSq s1.start a < distanceSq s1.start b)) res.1
  { res.2 with graph := linkChain res.2.graph s1.start (sorted ++ [s1.stop]) }

/-- State of the boundary-tracing walk of `polyUnion`. -/
structure WalkState where
  q : List Pt
  visited : List Pt
  result : List Pt
  prevPt : Option Pt
  clockwiseSet : Bool
deriving Repr

/-- `isVisited(v)` from the walk. -/
def isVisited (visited : List Pt) (v : Pt) : Bool :=
  visited.any fun x => ptEq x v

/-- The boundary-tracing `while (q.length > 0)` loop of `polyUnion`.

`none` models a thrown `TypeError`: reading the neighbours of a vertex
absent from the graph, reaching a degree-≠2 vertex with `prevPt === null`
(`vec(null, v)` dereferences `null`), or an empty candidate list there
(`isVisited(undefined)` dereferences `undefined`).  The source's
reference-inequality filters against `prevPt` are subsumed by the
value-based `isVisited` check (a processed vertex is always visited) and by
value inequality in the degree-≠2 branch.  The loop needs no fuel in the
source: every push but the first appends a previously unvisited vertex, so
with fuel `graph.length + 4` the `0` case is unreachable (also mapped to
`none`). -/
def walkLoop (g : Graph) : ℕ → WalkState → Option (List Pt)
  | 0, _ => none
  | fuel + 1, st =>
    match st.q with
    | [] => some st.result
    | v :: qrest =>
      let result := st.result ++ [v]
      match getNeighbours g v with
      | none => none
      | some neighb =>
        if neighb.length == 2 then
          if !st.clockwiseSet then
            let nb0 := neighb.getD 0 v
            let nb1 := neighb.getD 1 v
            let o := if areWindingClockwise [nb1, v, nb0] then [nb1, v, nb0]
              else [nb0, v, nb1]
            let o2 := o.getD 2 v
            walkLoop g fuel ⟨qrest ++ [o2], st.visited ++ [o2], result, some v, true⟩
          else
            match neighb.find? (fun x => !isVisited st.visited x) with
            | some nxt =>
                walkLoop g fuel
                  ⟨qrest ++ [nxt], st.visited ++ [nxt], result, some v, st.clockwiseSet⟩
            | none => walkLoop g fuel ⟨qrest, st.visited, result, some v, st.clockwiseSet⟩
        else
          match st.prevPt with
          | none => none
          | some pp =>
            let lastSegmentVec := vec pp v
            let cand := sortBy (fun p1 p2 => angleLt lastSegmentVec (vec v p1) (vec v p2))
              (neighb.filter fun x => !ptEq x pp)
            match cand with
            | [] => none
            | c0 :: _ =>
                if !isVisited st.visited c0 then
                  walkLoop g fuel
                    ⟨qrest ++ [c0], st.visited ++ [c0], result, some v, st.clockwiseSet⟩
                else walkLoop g fuel ⟨qrest, st.visited, result, some v, st.clockwiseSet⟩

/-- `polyUnion(poly1, poly2)`: graph-based boolean union of two polygons.
`none` models a thrown `TypeError` (see `walkLoop`); the non-crossing
containment branch always returns `some`. -/
def polyUnion (poly1 poly2 : List Pt) : Option (List (List Pt)) :=
  let segments2 := segments poly2
  let poly2Graph := segments2.foldl (fun g s2 => linkPoints g s2.start s2.stop) []
  let st := (segments poly1).foldl scanSegment ⟨segments2, poly2Graph, [], false⟩
  if !st.haveIntersection then
    if poly2.length == 0 || inside poly1 (poly2.headD pt0) then some [poly1]
    else if poly1.length == 0 || inside poly2 (poly1.headD pt0) then some [poly2]
    else some [poly1, poly2]
  else
    let mergedGraph := mergeGraphs st.graph st.poly2Graph
    match furthestFromLowestLeft (poly1 ++ poly2) with
    | none => none
    | some start =>
        (walkLoop mergedGraph (mergedGraph.length + 4)
          ⟨[start], [start], [], none, false⟩).map fun r => [r]

/-! ### `removeSelfIntersectingParts` -/

/-- One `reduce` step of the closest-intersection search of
`removeSelfIntersectingParts`: keep the candidate whose intersection point
lies closest to `segs[i].start` (ties keep the later index, as the
source's reduce returns `d2` on equal distances); invalid intersections
were filtered out, modelled by the `validIntersection` guard. -/
def closestStep (segs : List Seg) (i : ℕ) (acc : Option (ℕ × UV)) (j : ℕ) :
    Option (ℕ × UV) :=
  let inters := intersectSegments (segs.getD i ⟨pt0, pt0⟩) (segs.getD j ⟨pt0, pt0⟩)
  if validIntersection inters then
    match inters with
    | none => acc
    | some uv =>
        match acc with
        | none => some (j, uv)
        | some (j0, uv0) =>
            let pt1 := getIntersectionPoint uv0 (segs.getD i ⟨pt0, pt0⟩)
            let pt2 := getIntersectionPoint uv (segs.getD i ⟨pt0, pt0⟩)
            if distanceSq (segs.getD i ⟨pt0, pt0⟩).start pt1 <
                distanceSq (segs.getD i ⟨pt0, pt0⟩).start pt2 then some (j0, uv0)
            else some (j, uv)
  else acc

/-- The `range(i+1, segs.length - 1) … filter(valid) … reduce(closest)`
computation as a fold of `closestStep` over the index range. -/
def closestIntersection (segs : List Seg) (i : ℕ) : Option (ℕ × UV) :=
  (List.range' (i + 1) (segs.length - 1 - i)).foldl (closestStep segs i) none

/-- The `for (let i = 0; i < segs.length; ++i)` loop of
`removeSelfIntersectingParts`, with the in-loop jump `i = closest.index`.
The jump target always exceeds the current index, so the loop terminates;
the fuel (`segs.length + 1` at the call site) therefore never reaches `0`
(proved in `rsiLoop_isSome` below). -/
def rsiLoop (segs : List Seg) : ℕ → ℕ → List Pt → Option (List Pt)
  | fuel, i, result =>
    if i < segs.length then
      match fuel with
      | 0 => none
      | fuel + 1 =>
        let step :=
          match closestIntersection segs i with
          | some (j, uv) =>
              (j, result ++ [getIntersectionPoint uv (segs.getD i ⟨pt0, pt0⟩)])
          | none => (i, result)
        let result2 :=
          if step.1 < segs.length - 1 then step.2 ++ [(segs.getD step.1 ⟨pt0, pt0⟩).stop]
          else step.2
        rsiLoop segs fuel (step.1 + 1) result2
    else some result

/-- `removeSelfIntersectingParts(pts)`: greedy removal of self-crossing
loops by cutting each segment at its closest valid later intersection. -/
def removeSelfIntersectingParts (pts : List Pt) : Option (List Pt) :=
  let pts2 := pickClockwiseOrder pts
  let segs := segments pts2
  if segs.length == 0 then some pts2
  else rsiLoop segs (segs.length + 1) 0 [(segs.getD 0 ⟨pt0, pt0⟩).start]

/-! ### Concrete inputs used by witnesses and counterexamples -/

/-- The square of the spec's self-union scenario. -/
def sqPts : List Pt := [⟨0, 0⟩, ⟨10, 0⟩, ⟨10, 10⟩, ⟨0, 10⟩]

/-- A polygon with a zero-length segment (vertex `(20,-10)` duplicated)
that strictly crosses `sqPts`. -/
def badPoly : List Pt := [⟨4, 5⟩, ⟨20, -10⟩, ⟨20, -10⟩, ⟨6, 5⟩]

/-- A square disjoint from `sqPts`. -/
def farPts : List Pt := [⟨100, 100⟩, ⟨110, 100⟩, ⟨110, 110⟩, ⟨100, 110⟩]

/-- A self-intersecting "bowtie" whose shoelace sum is exactly zero. -/
def bowPts : List Pt := [⟨0, 0⟩, ⟨1, 0⟩, ⟨0, 1⟩, ⟨1, 1⟩]

/-- A clockwise triangle (screen coordinates, y growing downward). -/
def triPts : List Pt := [⟨0, 0⟩, ⟨10, 0⟩, ⟨0, 10⟩]

/-- A counterclockwise triangle. -/
def ccwTriPts : List Pt := [⟨0, 0⟩, ⟨0, 10⟩, ⟨10, 0⟩]

/-- `triPts` with its first vertex duplicated. -/
def dupPts : List Pt := [⟨0, 0⟩, ⟨0, 0⟩, ⟨10, 0⟩, ⟨0, 10⟩]

/-- A two-point (degenerate) polygon. -/
def twoPts : List Pt := [⟨0, 0⟩, ⟨1, 0⟩]

/-- A three-point open polyline for the tangent round-trip. -/
def threePts : List Pt := [⟨0, 0⟩, ⟨1, 2⟩, ⟨3, 1⟩]

/-! ## Theorems -/

/-- A `closeTo … 0 = false` hypothesis rules the quantity out of the
epsilon band, in particular it is nonzero. -/
theorem ne_zero_of_closeTo_eq_false {a : ℚ} (h : closeTo a 0 = false) : a ≠ 0 := by
  intro ha
  subst ha
  simp [closeTo, eps9] at h

/-- In the doubly non-degenerate case (`numerator1` and `denom` both outside
the epsilon band) `intersectSegments` returns the Cramer solution of the
2×2 system. -/
theorem intersectSegments_formula (segment1 segment2 : Seg)
    (h1 : closeTo (cross (vec segment1.start segment2.start)
      (vec segment1.start segment1.stop)) 0 = false)
    (h2 : closeTo (cross (vec segment1.start segment1.stop)
      (vec segment2.start segment2.stop)) 0 = false) :
    intersectSegments segment1 segment2 =
      some ⟨cross (vec segment1.start segment2.start) (vec segment2.start segment2.stop) /
              cross (vec segment1.start segment1.stop) (vec segment2.start segment2.stop),
            cross (vec segment1.start segment2.start) (vec segment1.start segment1.stop) /
              cross (vec segment1.start segment1.stop) (vec segment2.start segment2.stop)⟩ := by
  simp only [intersectSegments, h1, h2, Bool.false_and, Bool.false_or, Bool.false_eq_true,
    if_false]

/-- C2, counterexample: the segments `(0,0)→(1,0)` and `(0,0)→(0,1)` are
not parallel (`denom = 1`), yet `intersectSegments` returns `null`,
because the `v`-numerator is inside the epsilon band and the source's
second branch (`closeTo(numerator1, 0) || closeTo(denom, 0)`) fires.  This
refutes the claim that every non-parallel pair yields a non-null result. -/
theorem claim2_counterexample :
    closeTo (cross (vec (⟨0, 0⟩ : Pt) ⟨1, 0⟩) (vec (⟨0, 0⟩ : Pt) ⟨0, 1⟩)) 0 = false ∧
    intersectSegments ⟨⟨0, 0⟩, ⟨1, 0⟩⟩ ⟨⟨0, 0⟩, ⟨0, 1⟩⟩ = none := by
  constructor
  · with_unfolding_all decide
  · with_unfolding_all decide

/-- C2 (amended): if, in addition to `|denom|` being outside the 1e-9 band,
the `v`-numerator `cross(s1.start→s2.start, r)` is outside it as well, then
`intersectSegments(s1, s2)` returns a non-null `{u, v}` solving the linear
system `s1.start + u·r = s2.start + v·s` exactly, with no constraint on
`u, v` lying in `[0, 1]`. -/
theorem claim2_nonparallel_solves (segment1 segment2 : Seg)
    (h1 : closeTo (cross (vec segment1.start segment2.start)
      (vec segment1.start segment1.stop)) 0 = false)
    (h2 : closeTo (cross (vec segment1.start segment1.stop)
      (vec segment2.start segment2.stop)) 0 = false) :
    ∃ i : UV, intersectSegments segment1 segment2 = some i ∧
      vec_plus segment1.start (vec_mult (vec segment1.start segment1.stop) i.u) =
        vec_plus segment2.start (vec_mult (vec segment2.start segment2.stop) i.v) := by
  have hc : cross (vec segment1.start segment1.stop) (vec segment2.start segment2.stop) ≠ 0 :=
    ne_zero_of_closeTo_eq_false h2
  refine ⟨_, intersectSegments_formula segment1 segment2 h1 h2, ?_⟩
  obtain ⟨⟨ax, ay⟩, ⟨bx, by'⟩⟩ := segment1
  obtain ⟨⟨cx, cy⟩, ⟨dx, dy⟩⟩ := segment2
  simp only [vec, cross, vec_plus, vec_mult, Pt.mk.injEq] at hc ⊢
  constructor
  · field_simp
    ring
  · field_simp
    ring

/-- C2, witness of the amended claim at the spec's own concrete example
`{(0,0),(10,0)} × {(5,-5),(5,5)}`. -/
theorem claim2_witness :
    ∃ i : UV, intersectSegments ⟨⟨0, 0⟩, ⟨10, 0⟩⟩ ⟨⟨5, -5⟩, ⟨5, 5⟩⟩ = some i ∧
      vec_plus (⟨0, 0⟩ : Pt) (vec_mult (vec (⟨0, 0⟩ : Pt) ⟨10, 0⟩) i.u) =
        vec_plus (⟨5, -5⟩ : Pt) (vec_mult (vec (⟨5, -5⟩ : Pt) ⟨5, 5⟩) i.v) :=
  claim2_nonparallel_solves ⟨⟨0, 0⟩, ⟨10, 0⟩⟩ ⟨⟨5, -5⟩, ⟨5, 5⟩⟩ (by with_unfolding_all decide)
    (by with_unfolding_all decide)

/-- C7, counterexample: on a one-point list the source throws (`points[1]`
is `undefined` in `dx[0] = points[1].x - points[0].x`), modelled by `none`;
no control points are produced, refuting the unrestricted claim (which
would require `2*(1-1) = 0` of them). -/
theorem claim7_counterexample :
    monotoneTangents [pt0] = none ∧
    ((monotoneTangents [pt0]).map fun tg =>
      (getControlPointsFromTangents [pt0] tg).length) ≠ some (2 * ([pt0].length - 1)) := by
  refine ⟨rfl, ?_⟩
  intro h
  simp [monotoneTangents] at h

/-- C7 (amended): for every list of `n ≥ 2` points, `monotoneTangents`
returns one tangent per point and
`controlPointsFromTangents(points, monotoneTangents(points))` produces
exactly `2*(n-1)` control points. -/
theorem claim7_roundtrip (points : List Pt) (h : 2 ≤ points.length) :
    ∃ tg, monotoneTangents points = some tg ∧ tg.length = points.length ∧
      (getControlPointsFromTangents points tg).length = 2 * (points.length - 1) := by
  unfold monotoneTangents
  rw [if_neg (by omega)]
  refine ⟨_, rfl, by simp, ?_⟩
  unfold getControlPointsFromTangents
  rw [List.length_flatMap]
  simp only [Function.comp_def, List.length_cons, List.length_nil, Nat.zero_add,
    Nat.reduceAdd, List.map_const', List.length_range, List.sum_replicate, smul_eq_mul]
  omega

/-- C7, witness of the amended claim on a three-point polyline. -/
theorem claim7_witness :
    ∃ tg, monotoneTangents threePts = some tg ∧ tg.length = threePts.length ∧
      (getControlPointsFromTangents threePts tg).length = 2 * (threePts.length - 1) :=
  claim7_roundtrip threePts (by decide)

/-- Lengths of the two output lists accumulated by the
`getClosedBasisCurvePoints` fold: each `addPoint` appends one curve point
and two control points. -/
theorem basis_foldl_lengths (L : List Pt) :
    ∀ st : Pt × Pt × List Pt × List Pt,
      (L.foldl basisAddPoint st).2.2.1.length = st.2.2.1.length + L.length ∧
      (L.foldl basisAddPoint st).2.2.2.length = st.2.2.2.length + 2 * L.length := by
  induction L with
  | nil => intro st; simp
  | cons x xs ih =>
      intro st
      rw [List.foldl_cons]
      obtain ⟨h1, h2⟩ := ih (basisAddPoint st x)
      rw [h1, h2]
      simp only [basisAddPoint, List.length_append, List.length_cons, List.length_nil]
      omega

/-- C10: `getClosedBasisCurvePoints` returns a pair of empty arrays for
`n ≤ 3` input points, and exactly `n+1` curve points with `2·n` control
points for `n ≥ 4` — so every non-empty output satisfies
`controlPoints.length = 2*(points.length - 1)`. -/
theorem claim10_closedBasis (points : List Pt) :
    (points.length ≤ 3 → getClosedBasisCurvePoints points = ([], [])) ∧
    (4 ≤ points.length →
      (getClosedBasisCurvePoints points).1.length = points.length + 1 ∧
      (getClosedBasisCurvePoints points).2.length = 2 * points.length ∧
      (getClosedBasisCurvePoints points).2.length =
        2 * ((getClosedBasisCurvePoints points).1.length - 1)) := by
  constructor
  · intro h
    unfold getClosedBasisCurvePoints
    rw [if_pos h]
  · intro h
    obtain ⟨f, s, t, rest, rfl⟩ : ∃ f s t rest, points = f :: s :: t :: rest := by
      match points, h with
      | f :: s :: t :: rest, _ => exact ⟨f, s, t, rest, rfl⟩
    unfold getClosedBasisCurvePoints
    rw [if_neg (by simp only [List.length_cons] at h ⊢; omega)]
    simp only [List.drop_succ_cons, List.drop_zero]
    obtain ⟨h1, h2⟩ := basis_foldl_lengths (rest ++ [f, s, t])
      (s, t, [⟨(f.x + 4 * s.x + t.x) / 6, (f.y + 4 * s.y + t.y) / 6⟩], [])
    rw [h1, h2]
    simp only [List.length_append, List.length_cons, List.length_nil]
    omega

/-- C10, witness: the two branches at a one-point and a four-point input. -/
theorem claim10_witness :
    getClosedBasisCurvePoints [pt0] = ([], []) ∧
    (getClosedBasisCurvePoints sqPts).1.length = sqPts.length + 1 ∧
    (getClosedBasisCurvePoints sqPts).2.length = 2 * sqPts.length :=
  ⟨(claim10_closedBasis [pt0]).1 (by decide),
   ((claim10_closedBasis sqPts).2 (by decide)).1,
   ((claim10_closedBasis sqPts).2 (by decide)).2.1⟩

/-- C9, counterexample: unioning the square `[(0,0),(10,0),(10,10),(0,10)]`
with itself returns two polygons, not one: no segment pair crosses
strictly, and the parity ray test `inside` returns `false` for the boundary
vertex `(0,0)` (two of the four ray intersections are discarded by the
`closeTo(numerator1, 0)` branch of `intersectSegments`), so the disjoint
branch `[A, B]` is taken. -/
theorem claim9_counterexample :
    (polyUnion sqPts sqPts).map List.length = some 2 ∧
    (some 2 : Option ℕ) ≠ some 1 := by
  constructor
  · with_unfolding_all rfl
  · simp

/-- C9 (amended): unioning the square with itself returns the two-element
list `[square, square]` (the self-containment test fails on the shared
boundary vertex, so neither polygon is recognised as inside the other). -/
theorem claim9_amended : polyUnion sqPts sqPts = some [sqPts, sqPts] := by
  with_unfolding_all rfl

/-- `windingTerm` flips sign when a segment is traversed backwards. -/
theorem windingTerm_swap (a b : Pt) : windingTerm ⟨a, b⟩ = -windingTerm ⟨b, a⟩ := by
  simp only [windingTerm]
  ring

/-- Appending a final vertex to a chain appends one segment from the
chain's last vertex. -/
theorem consecSegs_append_last (q : Pt) :
    ∀ (l : List Pt) (p : Pt),
      consecSegs p (l ++ [q]) = consecSegs p l ++ [⟨l.getLastD p, q⟩] := by
  intro l
  induction l with
  | nil => intro p; simp [consecSegs]
  | cons x xs ih =>
      intro p
      simp only [List.cons_append, consecSegs, List.append_eq]
      rw [ih x, List.getLastD_cons]

/-- Chain sum after appending a vertex at the back. -/
theorem pathSegs_sum_append (L : List Pt) (q : Pt) :
    ((pathSegs (L ++ [q])).map windingTerm).sum =
      ((pathSegs L).map windingTerm).sum +
        (if L = [] then 0 else windingTerm ⟨L.getLastD pt0, q⟩) := by
  cases L with
  | nil => simp [pathSegs, consecSegs]
  | cons p l =>
      simp only [List.cons_append, pathSegs, consecSegs_append_last, List.map_append,
        List.sum_append, if_neg (List.cons_ne_nil p l), List.getLastD_cons]
      simp

/-- Chain sum after prepending a vertex at the front. -/
theorem pathSegs_sum_cons (q : Pt) (L : List Pt) :
    ((pathSegs (q :: L)).map windingTerm).sum =
      (if L = [] then 0 else windingTerm ⟨q, L.headD pt0⟩) +
        ((pathSegs L).map windingTerm).sum := by
  cases L with
  | nil => simp [pathSegs, consecSegs]
  | cons x xs => simp [pathSegs, consecSegs]

/-- Reversing a vertex chain negates the chain sum. -/
theorem pathSegs_sum_reverse :
    ∀ L : List Pt,
      ((pathSegs L.reverse).map windingTerm).sum = -((pathSegs L).map windingTerm).sum := by
  intro L
  induction L with
  | nil => simp [pathSegs]
  | cons q L ih =>
      rw [List.reverse_cons, pathSegs_sum_append, ih, pathSegs_sum_cons]
      cases L with
      | nil => simp
      | cons x xs =>
          rw [if_neg (by simp), if_neg (by simp)]
          have hgl : (x :: xs : List Pt).reverse.getLastD pt0 = (x :: xs).headD pt0 := by
            rw [List.getLastD_eq_getLast?, List.getLast?_reverse, List.headD_eq_head?]
          rw [hgl]
          show _ + windingTerm ⟨(x :: xs).headD pt0, q⟩ = _
          rw [windingTerm_swap]
          ring

/-- For at least two points, `segments` is the open chain plus the closing
segment from the last point back to the first. -/
theorem segments_eq_pathSegs (pts : List Pt) (h : 2 ≤ pts.length) :
    segments pts = pathSegs pts ++ [⟨pts.getLastD pt0, pts.headD pt0⟩] := by
  match pts, h with
  | p :: x :: l, _ =>
      simp only [segments, pathSegs, List.getLastD_cons, List.headD_cons, List.cons_append,
        List.cons.injEq, and_true, true_and]

/-- Reversing the polygon negates the shoelace-style winding sum. -/
theorem windingSum_reverse (pts : List Pt) :
    windingSum pts.reverse = -windingSum pts := by
  match pts with
  | [] => simp [windingSum, segments]
  | [p] => simp [windingSum, segments]
  | p :: x :: l =>
      have h2 : 2 ≤ (p :: x :: l : List Pt).length := by
        simp only [List.length_cons]
        omega
      have h2r : 2 ≤ (p :: x :: l : List Pt).reverse.length := by
        rw [List.length_reverse]
        exact h2
      unfold windingSum
      rw [segments_eq_pathSegs _ h2, segments_eq_pathSegs _ h2r]
      simp only [List.map_append, List.sum_append, List.map_cons, List.map_nil,
        List.sum_cons, List.sum_nil]
      rw [pathSegs_sum_reverse]
      have hgl : (p :: x :: l : List Pt).reverse.getLastD pt0 = (p :: x :: l).headD pt0 := by
        rw [List.getLastD_eq_getLast?, List.getLast?_reverse, List.headD_eq_head?]
      have hhd : (p :: x :: l : List Pt).reverse.headD pt0 = (p :: x :: l).getLastD pt0 := by
        rw [List.headD_eq_head?, List.head?_reverse, List.getLastD_eq_getLast?]
      rw [hgl, hhd, windingTerm_swap]
      ring

/-- Polygons with at most two points have winding sum exactly zero (the two
segments of a 2-point polygon cancel). -/
theorem windingSum_short (pts : List Pt) (h : pts.length ≤ 2) : windingSum pts = 0 := by
  match pts with
  | [] => simp [windingSum, segments]
  | [p] => simp [windingSum, segments]
  | [a, b] =>
      simp [windingSum, segments, consecSegs, windingTerm, List.getLastD_cons]
      ring
  | a :: b :: c :: l =>
      simp only [List.length_cons] at h
      omega

/-- C8, counterexample: the bowtie `[(0,0),(1,0),(0,1),(1,1)]` has four
points, three of which are non-collinear, yet its shoelace sum is exactly
zero, so neither it nor its reversal passes the clockwise test and
`windingIsClockwise(canonicalClockwise(P))` is `false`. -/
theorem claim8_counterexample :
    bowPts.length = 4 ∧
    cross (vec (bowPts.getD 0 pt0) (bowPts.getD 1 pt0))
      (vec (bowPts.getD 0 pt0) (bowPts.getD 2 pt0)) ≠ 0 ∧
    areWindingClockwise (pickClockwiseOrder bowPts) = false := by
  refine ⟨rfl, ?_, ?_⟩
  · with_unfolding_all decide
  · with_unfolding_all rfl

/-- C8 (amended): for every polygon whose shoelace sum is nonzero (a
non-degenerate signed area, which three non-collinear points do not by
themselves guarantee), `windingIsClockwise(canonicalClockwise(P))` is
true. -/
theorem claim8_amended (pts : List Pt) (h : windingSum pts ≠ 0) :
    areWindingClockwise (pickClockwiseOrder pts) = true := by
  have h3 : ¬pts.length ≤ 2 := fun hle => h (windingSum_short pts hle)
  unfold pickClockwiseOrder
  rw [if_neg h3]
  by_cases hcw : areWindingClockwise pts
  · rw [if_pos hcw]
    exact hcw
  · rw [if_neg hcw]
    have hnn : ¬windingSum pts < 0 := by
      intro hlt
      exact hcw (by simp [areWindingClockwise, hlt])
    have hpos : 0 < windingSum pts := lt_of_le_of_ne (not_lt.1 hnn) (Ne.symm h)
    simp [areWindingClockwise, windingSum_reverse, hpos]

/-- C8, witness of the amended claim on a counterclockwise triangle. -/
theorem claim8_witness :
    windingSum ccwTriPts ≠ 0 ∧ areWindingClockwise (pickClockwiseOrder ccwTriPts) = true :=
  ⟨by with_unfolding_all decide, claim8_amended ccwTriPts (by with_unfolding_all decide)⟩

/-- Pointwise extensionality for `Pt`. -/
theorem ptExt {p q : Pt} (hx : p.x = q.x) (hy : p.y = q.y) : p = q := by
  cases p
  cases q
  cases hx
  cases hy
  rfl

/-- Adding a zero-scaled offset vector leaves a point unchanged. -/
theorem vec_plus_mult_zero (w n : Pt) : vec_plus w (vec_mult n 0) = w := by
  refine ptExt ?_ ?_ <;> simp [vec_plus, vec_mult]

/-- Walking the full parameter range of a segment from `w` to `z` lands on
`z`. -/
theorem vec_plus_mult_one (w z : Pt) : vec_plus w (vec_mult (vec w z) 1) = z := by
  refine ptExt ?_ ?_ <;> simp [vec, vec_plus, vec_mult]

/-- At offset 0 the offset edges of a vertex `p` (incoming from `prev`,
outgoing towards `next` with start/end swapped) meet back at `p`: the
non-degenerate branch of `intersectSegments` returns `{u: 1, v: 1}`. -/
theorem intersect_offset_zero (prev p next : Pt)
    (h : closeTo (cross (vec prev p) (vec next p)) 0 = false) :
    intersectSegments ⟨prev, p⟩ ⟨next, p⟩ = some ⟨1, 1⟩ := by
  have h1 : closeTo (cross (vec prev next) (vec prev p)) 0 = false := by
    have e : cross (vec prev next) (vec prev p) = cross (vec prev p) (vec next p) := by
      simp only [cross, vec]
      ring
    rw [e]
    exact h
  rw [intersectSegments_formula ⟨prev, p⟩ ⟨next, p⟩ h1 h]
  have hc : cross (vec prev p) (vec next p) ≠ 0 := ne_zero_of_closeTo_eq_false h
  have hu : cross (vec prev next) (vec next p) = cross (vec prev p) (vec next p) := by
    simp only [cross, vec]
    ring
  have hv : cross (vec prev next) (vec prev p) = cross (vec prev p) (vec next p) := by
    simp only [cross, vec]
    ring
  rw [hu, hv, div_self hc]

/-- A vertex that passes the degeneracy screen contributes exactly itself
at offset 0. -/
theorem expandVertex_zero (q : List Pt) (i : ℕ)
    (h1 : ptEq (q.getD i pt0) (q.getD ((i + 1) % q.length) pt0) = false)
    (h2 : ptEq (q.getD ((i + q.length - 1) % q.length) pt0) (q.getD i pt0) = false)
    (h3 : collinear (q.getD ((i + q.length - 1) % q.length) pt0) (q.getD i pt0)
      (q.getD ((i + 1) % q.length) pt0) = false)
    (h4 : closeTo (cross (vec (q.getD ((i + q.length - 1) % q.length) pt0) (q.getD i pt0))
      (vec (q.getD ((i + 1) % q.length) pt0) (q.getD i pt0))) 0 = false) :
    expandVertex q 0 i = [q.getD i pt0] := by
  unfold expandVertex
  simp only [h1, h2, h3, Bool.or_self, Bool.or_false, Bool.false_or, Bool.false_eq_true,
    if_false, vec_plus_mult_zero]
  rw [intersect_offset_zero _ _ _ h4]
  simp only [vec_plus_mult_one]

/-- A `flatMap` over an index range where every index yields its own
singleton reconstructs a `map`. -/
theorem flatMap_range_singleton {α : Type} (n : ℕ) (f : ℕ → List α) (g : ℕ → α)
    (h : ∀ i < n, f i = [g i]) : (List.range n).flatMap f = (List.range n).map g := by
  induction n with
  | zero => simp
  | succ m ih =>
      rw [List.range_succ, List.flatMap_append, List.map_append,
        ih fun i hi => h i (by omega)]
      simp [h m (by omega)]

/-- Reading every index of a list back in order reconstructs the list. -/
theorem map_getD_range {α : Type} (q : List α) (d : α) :
    (List.range q.length).map (fun i => q.getD i d) = q := by
  induction q with
  | nil => simp
  | cons a l ih =>
      rw [List.length_cons, List.range_succ_eq_map, List.map_cons, List.map_map]
      simp only [Function.comp_def, List.getD_cons_zero, List.getD_cons_succ]
      rw [ih]

/-- C3 (as stated, with the spec's "within the collinearity tolerance"
hedge made precise): if no vertex of the clockwise reordering `Q` of `P` is
degenerate — equal to a neighbour, collinear with both neighbours within
1e-6, or with its corner cross product inside the 1e-9 intersection band —
then `expand(P, 0)` is exactly `Q`. -/
theorem claim3_expand_zero (pts : List Pt)
    (H : ∀ i < (pickClockwiseOrder pts).length,
      ptEq ((pickClockwiseOrder pts).getD i pt0)
        ((pickClockwiseOrder pts).getD ((i + 1) % (pickClockwiseOrder pts).length) pt0)
          = false ∧
      ptEq ((pickClockwiseOrder pts).getD
          ((i + (pickClockwiseOrder pts).length - 1) % (pickClockwiseOrder pts).length) pt0)
        ((pickClockwiseOrder pts).getD i pt0) = false ∧
      collinear ((pickClockwiseOrder pts).getD
          ((i + (pickClockwiseOrder pts).length - 1) % (pickClockwiseOrder pts).length) pt0)
        ((pickClockwiseOrder pts).getD i pt0)
        ((pickClockwiseOrder pts).getD ((i + 1) % (pickClockwiseOrder pts).length) pt0)
          = false ∧
      closeTo (cross
        (vec ((pickClockwiseOrder pts).getD
            ((i + (pickClockwiseOrder pts).length - 1) % (pickClockwiseOrder pts).length) pt0)
          ((pickClockwiseOrder pts).getD i pt0))
        (vec ((pickClockwiseOrder pts).getD ((i + 1) % (pickClockwiseOrder pts).length) pt0)
          ((pickClockwiseOrder pts).getD i pt0))) 0 = false) :
    expand pts 0 = pickClockwiseOrder pts := by
  unfold expand
  rw [flatMap_range_singleton _ _ (fun i => (pickClockwiseOrder pts).getD i pt0)
    fun i hi => by
      obtain ⟨h1, h2, h3, h4⟩ := H i hi
      exact expandVertex_zero _ i h1 h2 h3 h4]
  exact map_getD_range _ _

/-- C3, witness: a clockwise triangle is reproduced exactly by
`expand(·, 0)`. -/
theorem claim3_witness : expand triPts 0 = pickClockwiseOrder triPts :=
  claim3_expand_zero triPts (by with_unfolding_all decide)

/-- Dropping an index whose contribution is empty does not change a
`flatMap`. -/
theorem flatMap_filter_of_nil {α : Type} (f : ℕ → List α) (i : ℕ) (hf : f i = []) :
    ∀ l : List ℕ, l.flatMap f = (l.filter fun j => !(j == i)).flatMap f := by
  intro l
  induction l with
  | nil => simp
  | cons x xs ih =>
      by_cases hx : x = i
      · subst hx
        simp [List.filter_cons, hf, ih]
      · simp [List.filter_cons, hx, ih]

/-- C4: a degenerate vertex of the clockwise ordering — equal to a
neighbouring vertex, or collinear with both of its neighbours within
tolerance 1e-6 — contributes no vertex to the offset output, for any
offset distance: `expand` equals the same accumulation with that index
removed. -/
theorem claim4_degenerate_skipped (pts : List Pt) (amount : ℚ) (i : ℕ)
    (_hi : i < (pickClockwiseOrder pts).length)
    (hdeg : ptEq ((pickClockwiseOrder pts).getD i pt0)
        ((pickClockwiseOrder pts).getD ((i + 1) % (pickClockwiseOrder pts).length) pt0)
          = true ∨
      ptEq ((pickClockwiseOrder pts).getD
          ((i + (pickClockwiseOrder pts).length - 1) % (pickClockwiseOrder pts).length) pt0)
        ((pickClockwiseOrder pts).getD i pt0) = true ∨
      collinear ((pickClockwiseOrder pts).getD
          ((i + (pickClockwiseOrder pts).length - 1) % (pickClockwiseOrder pts).length) pt0)
        ((pickClockwiseOrder pts).getD i pt0)
        ((pickClockwiseOrder pts).getD ((i + 1) % (pickClockwiseOrder pts).length) pt0)
          = true) :
    expand pts amount =
      ((List.range (pickClockwiseOrder pts).length).filter fun j => !(j == i)).flatMap
        (expandVertex (pickClockwiseOrder pts) amount) := by
  unfold expand
  have hskip : expandVertex (pickClockwiseOrder pts) amount i = [] := by
    rcases hdeg with h | h | h <;>
      simp only [expandVertex, h, Bool.true_or, Bool.or_true, if_true]
  exact flatMap_filter_of_nil _ i hskip _

/-- C4, witness: the duplicated vertex 0 of `dupPts` is skipped at offset
5. -/
theorem claim4_witness :
    expand dupPts 5 =
      ((List.range (pickClockwiseOrder dupPts).length).filter fun j => !(j == 0)).flatMap
        (expandVertex (pickClockwiseOrder dupPts) 5) :=
  claim4_degenerate_skipped dupPts 5 0 (by with_unfolding_all decide)
    (Or.inl (by with_unfolding_all decide))

/-- When `s1` crosses nothing in the scanned list, the inner scan is the
identity on its accumulator. -/
theorem foldl_innerScan_id (s1 : Seg) :
    ∀ (l : List Seg) (acc : List Pt × UnionScanState),
      (∀ s2 ∈ l, isStrictCrossing (intersectSegments s1 s2) = false) →
      l.foldl (innerScan s1) acc = acc := by
  intro l
  induction l with
  | nil => intro acc _; rfl
  | cons s2 xs ih =>
      intro acc h
      rw [List.foldl_cons]
      have hstep : innerScan s1 acc s2 = acc := by
        simp only [innerScan, h s2 (List.mem_cons_self s2 xs), Bool.false_eq_true, if_false]
      rw [hstep]
      exact ih acc fun s hs => h s (by simp [hs])

/-- Processing one `poly1` segment that crosses nothing only links the
segment's own chain into `graph`. -/
theorem scanSegment_no_cross (st : UnionScanState) (s1 : Seg)
    (h : ∀ s2 ∈ st.segs2, isStrictCrossing (intersectSegments s1 s2) = false) :
    scanSegment st s1 = { st with graph := linkChain st.graph s1.start [s1.stop] } := by
  unfold scanSegment
  rw [foldl_innerScan_id s1 st.segs2 ([], st) h]
  rfl

/-- Under the no-crossing hypothesis, the whole scan leaves `segs2`,
`poly2Graph` and the `haveIntersection` flag untouched. -/
theorem scan_fold_preserves (S : List Seg) :
    ∀ (l : List Seg) (st : UnionScanState),
      st.segs2 = S →
      (∀ s1 ∈ l, ∀ s2 ∈ S, isStrictCrossing (intersectSegments s1 s2) = false) →
      (l.foldl scanSegment st).segs2 = S ∧
        (l.foldl scanSegment st).haveIntersection = st.haveIntersection ∧
        (l.foldl scanSegment st).poly2Graph = st.poly2Graph := by
  intro l
  induction l with
  | nil => intro st hs _; exact ⟨hs, rfl, rfl⟩
  | cons s1 xs ih =>
      intro st hs h
      rw [List.foldl_cons, scanSegment_no_cross st s1 (by rw [hs]; exact h s1 (by simp))]
      exact ih _ hs fun s hsl s2 hs2 => h s (by simp [hsl]) s2 hs2

/-- Shared reduction: with no strict crossing between the two segment
lists, `polyUnion` takes the containment branch. -/
theorem polyUnion_no_crossing (poly1 poly2 : List Pt)
    (h : ∀ s1 ∈ segments poly1, ∀ s2 ∈ segments poly2,
      isStrictCrossing (intersectSegments s1 s2) = false) :
    polyUnion poly1 poly2 =
      (if poly2.length == 0 || inside poly1 (poly2.headD pt0) then some [poly1]
       else if poly1.length == 0 || inside poly2 (poly1.headD pt0) then some [poly2]
       else some [poly1, poly2]) := by
  obtain ⟨h1, h2, h3⟩ := scan_fold_preserves (segments poly2) (segments poly1)
    ⟨segments poly2,
      (segments poly2).foldl (fun g s2 => linkPoints g s2.start s2.stop) [], [], false⟩
    rfl h
  simp only [polyUnion, h2, Bool.not_false, if_true]

/-- C1: for polygons `A`, `B` with no pair of segments crossing strictly
(both parameters inside `(0,1)`), `union(A, B)` returns `[A]` if `B`'s
first point lies inside `A`, else `[B]` if `A`'s first point lies inside
`B`, else `[A, B]` in that order. -/
theorem claim1_union_no_overlap (A B : List Pt) (hA : A ≠ []) (hB : B ≠ [])
    (h : ∀ s1 ∈ segments A, ∀ s2 ∈ segments B,
      isStrictCrossing (intersectSegments s1 s2) = false) :
    polyUnion A B =
      some (if inside A (B.headD pt0) then [A]
        else if inside B (A.headD pt0) then [B]
        else [A, B]) := by
  rw [polyUnion_no_crossing A B h]
  have hBlen : (B.length == 0) = false := by
    rw [beq_eq_false_iff_ne]
    exact fun h0 => hB (List.length_eq_zero.1 h0)
  have hAlen : (A.length == 0) = false := by
    rw [beq_eq_false_iff_ne]
    exact fun h0 => hA (List.length_eq_zero.1 h0)
  rw [hBlen, hAlen]
  simp only [Bool.false_or]
  cases c1 : inside A (B.headD pt0) <;> cases c2 : inside B (A.headD pt0) <;>
    simp [c1, c2]

/-- C1, witness: the two disjoint squares of the spec produce `[A, B]`. -/
theorem claim1_witness :
    polyUnion sqPts farPts =
      some (if inside sqPts (farPts.headD pt0) then [sqPts]
        else if inside farPts (sqPts.headD pt0) then [farPts]
        else [sqPts, farPts]) :=
  claim1_union_no_overlap sqPts farPts (by with_unfolding_all decide)
    (by with_unfolding_all decide) (by with_unfolding_all decide)

/-- Each `closestStep` either keeps the accumulator or selects the scanned
index itself. -/
theorem closestStep_cases (segs : List Seg) (i : ℕ) (acc : Option (ℕ × UV)) (x : ℕ) :
    closestStep segs i acc x = acc ∨ ∃ uv, closestStep segs i acc x = some (x, uv) := by
  unfold closestStep
  cases hI : intersectSegments (segs.getD i ⟨pt0, pt0⟩) (segs.getD x ⟨pt0, pt0⟩) with
  | none => simp [validIntersection]
  | some uv =>
      by_cases hv : validIntersection (some uv) = true
      · rw [if_pos hv]
        cases acc with
        | none => right; exact ⟨uv, rfl⟩
        | some ju =>
            obtain ⟨j0, uv0⟩ := ju
            by_cases hd : distanceSq (segs.getD i ⟨pt0, pt0⟩).start
                (getIntersectionPoint uv0 (segs.getD i ⟨pt0, pt0⟩)) <
                distanceSq (segs.getD i ⟨pt0, pt0⟩).start
                (getIntersectionPoint uv (segs.getD i ⟨pt0, pt0⟩))
            · left
              simp only [if_pos hd]
            · right
              exact ⟨uv, by simp only [if_neg hd]⟩
      · rw [if_neg hv]
        left
        rfl

/-- Fold invariant: every index the closest-intersection fold can select
comes from the scanned index list. -/
theorem closest_fold_ge (segs : List Seg) (i lo : ℕ) :
    ∀ (L : List ℕ) (acc : Option (ℕ × UV)),
      (∀ x ∈ L, lo ≤ x) →
      (∀ j uv, acc = some (j, uv) → lo ≤ j) →
      ∀ j uv, L.foldl (closestStep segs i) acc = some (j, uv) → lo ≤ j := by
  intro L
  induction L with
  | nil => intro acc _ hacc j uv h; exact hacc j uv h
  | cons x xs ih =>
      intro acc hL hacc j uv h
      rw [List.foldl_cons] at h
      refine ih _ (fun y hy => hL y (by simp [hy])) ?_ j uv h
      intro j' uv' hstep
      rcases closestStep_cases segs i acc x with hc | ⟨uvx, hc⟩
      · exact hacc j' uv' (hc ▸ hstep)
      · rw [hc] at hstep
        obtain ⟨rfl, -⟩ := Prod.mk.injEq .. ▸ Option.some.injEq .. ▸ hstep
        exact hL x (by simp)

/-- The jump target of `removeSelfIntersectingParts` always lies beyond
the current segment index. -/
theorem closestIntersection_ge (segs : List Seg) (i j : ℕ) (uv : UV)
    (h : closestIntersection segs i = some (j, uv)) : i + 1 ≤ j := by
  unfold closestIntersection at h
  exact closest_fold_ge segs i (i + 1) _ none
    (fun x hx => (List.mem_range'_1.1 hx).1) (by simp) j uv h

/-- The fuel of the `removeSelfIntersectingParts` loop suffices: the walk
index strictly increases, so with `segs.length ≤ i + fuel` the loop always
returns a value (the source's loop terminates and the `none` fuel case is
unreachable). -/
theorem rsiLoop_isSome (segs : List Seg) :
    ∀ (fuel i : ℕ) (result : List Pt), segs.length ≤ i + fuel →
      (rsiLoop segs fuel i result).isSome = true := by
  intro fuel
  induction fuel with
  | zero =>
      intro i result h
      unfold rsiLoop
      rw [if_neg (by omega)]
      rfl
  | succ fuel ih =>
      intro i result h
      unfold rsiLoop
      by_cases hi : i < segs.length
      · rw [if_pos hi]
        cases hC : closestIntersection segs i with
        | none =>
            simp only [hC]
            exact ih (i + 1) _ (by omega)
        | some ju =>
            obtain ⟨j, uv⟩ := ju
            have hj := closestIntersection_ge segs i j uv hC
            simp only [hC]
            exact ih (j + 1) _ (by omega)
      · rw [if_neg hi]
        rfl

/-- `removeSelfIntersectingParts` always returns a polygon. -/
theorem removeSelfIntersectingParts_total (pts : List Pt) :
    (removeSelfIntersectingParts pts).isSome = true := by
  simp only [removeSelfIntersectingParts]
  split
  · rfl
  · exact rsiLoop_isSome _ _ 0 _ (by omega)

set_option maxRecDepth 100000 in
/-- C5, counterexample: `badPoly` has a zero-length segment (its second and
third vertices coincide), and `union(square, badPoly)` throws a
`TypeError`: two strict crossings exist, the boundary trace starts at the
duplicated vertex `(20,-10)` (degree 4 in the merged graph), and the
degree-≠2 branch dereferences `prevPt === null` — modelled by `none`. -/
theorem claim5_counterexample :
    badPoly.getD 1 pt0 = badPoly.getD 2 pt0 ∧ polyUnion sqPts badPoly = none := by
  constructor
  · with_unfolding_all rfl
  · with_unfolding_all rfl

/-- C5 (amended): `expand` is total by structure (every vertex either
contributes its miter point or is silently skipped), and so is
`removeSelfIntersectingParts` (first conjunct); `union` terminates without
throwing whenever no pair of segments crosses strictly — which covers
empty polygons and disjoint degenerate ones — but it CAN throw when a
degenerate polygon strictly crosses the other one
(`claim5_counterexample`), so the unrestricted no-throw claim fails for
`union`. -/
theorem claim5_amended :
    (∀ pts : List Pt, (removeSelfIntersectingParts pts).isSome = true) ∧
    (∀ A B : List Pt,
      (∀ s1 ∈ segments A, ∀ s2 ∈ segments B,
        isStrictCrossing (intersectSegments s1 s2) = false) →
      (polyUnion A B).isSome = true) := by
  refine ⟨removeSelfIntersectingParts_total, fun A B h => ?_⟩
  rw [polyUnion_no_crossing A B h]
  split
  · rfl
  split
  · rfl
  · rfl

/-- C5, witness: a 2-point degenerate polygon unioned with a disjoint
square, and `removeSelfIntersectingParts` on a triangle. -/
theorem claim5_witness :
    (removeSelfIntersectingParts triPts).isSome = true ∧
    (polyUnion twoPts farPts).isSome = true :=
  ⟨claim5_amended.1 triPts, claim5_amended.2 twoPts farPts (by with_unfolding_all decide)⟩

end TM
